import Mathlib

/-!
Verification of the append-only paged blob store in `src/paged_file_store2.rs`.

The store keeps a header (8-byte big-endian committed size `S`), a sequence
of fixed-size data pages of `PAGE_SIZE` bytes, a mutable tail page, and a map
from page index to sealed page handles.  We embed the store as a state
`Inner` with:
  * `size`    — the committed size held in the header (`Header::size`),
  * `mem`     — the contents of the data region, as a function from logical
                offset (position after the header, i.e. `page_index * P +
                in_page_offset`) to byte value,
  * `pageMap` — the set of page indices present in the `pages` hash map
                (sealed pages and lazily mapped pages).

Writes in the source go through the mutable mapping of the current tail
page, which always covers page `S / P`; writing at in-page offset
`S % P` of that mapping is the logical position `(S / P) * P + S % P = S`,
which is how `Inner.append` below places its bytes.  `close_page` swaps in a
fresh zeroed mapping and converts the old one to a read-only page; it never
changes file contents, so `mem` is unchanged by it.
-/

namespace PagedFileStore

/-- Write the bytes `bs` into memory at position `pos` (pointwise model of a
slice copy into the page mapping). -/
def writeBytes (mem : Nat → Nat) (pos : Nat) (bs : List Nat) : Nat → Nat :=
  fun i => if pos ≤ i ∧ i < pos + bs.length then bs.getD (i - pos) 0 else mem i

/-- Read `n` consecutive bytes starting at `pos`. -/
def readBytes (mem : Nat → Nat) (pos n : Nat) : List Nat :=
  (List.range n).map (fun i => mem (pos + i))

/-- The four big-endian bytes of `n` as a u32 (`u32::to_be_bytes`, the cast
`len as u32` truncates modulo 2^32 exactly as these formulas do). -/
def be32 (n : Nat) : List Nat :=
  [n / 2 ^ 24 % 256, n / 2 ^ 16 % 256, n / 2 ^ 8 % 256, n % 256]

/-- Decode a big-endian u32 from four bytes at `pos`
(`u32::from_be_bytes`). -/
def readBe32 (mem : Nat → Nat) (pos : Nat) : Nat :=
  mem pos * 2 ^ 24 + mem (pos + 1) * 2 ^ 16 + mem (pos + 2) * 2 ^ 8 + mem (pos + 3)

/-- Modelled from the spec: `write_length_prefixed` (imported by
`paged_file_store2.rs` but not under `src/`).  Per spec section 6, a record
is a 4-byte big-endian u32 length followed by the payload bytes, written
consecutively at `pos`. -/
def write_length_prefixed (mem : Nat → Nat) (pos : Nat) (data : List Nat) : Nat → Nat :=
  writeBytes (writeBytes mem pos (be32 data.length)) (pos + 4) data

/-- Abstract error kinds of the store (spec section 7); the source uses
`anyhow` errors for each of these sites. -/
inductive Err where
  | blobTooLarge
  | pageNotFound
  | badOffset
  | truncated
deriving DecidableEq, Repr

/-- State of `Inner<PAGE_SIZE>`: committed size (header), data-region
contents, and the key set of the `pages` map. -/
structure Inner where
  size : Nat
  mem : Nat → Nat
  pageMap : List Nat

/-- `Inner::new` on a fresh (empty) file: the header is zero-padded, so the
committed size is 0; the file is zero; no sealed pages. -/
def Inner.fresh : Inner :=
  { size := 0, mem := fun _ => 0, pageMap := [] }

/-- `Page::bytes` (source line 67): `ensure!(offset + 4 < SIZE)`, then the
blob is produced by `get_slice` / `read_length_prefixed`.  The latter is not
under `src/`; modelled from the spec: read the 4-byte big-endian length `L`
at the offset, fail with Truncated if `offset + 4 + L > P`, otherwise return
the `L` payload bytes. -/
def Page.bytes (P : Nat) (mem : Nat → Nat) (page page_offset : Nat) :
    Except Err (List Nat) :=
  if page_offset + 4 < P then
    if page_offset + 4 + readBe32 mem (page * P + page_offset) > P then
      Except.error Err.truncated
    else
      Except.ok (readBytes mem (page * P + page_offset + 4)
        (readBe32 mem (page * P + page_offset)))
  else Except.error Err.badOffset

/-- `Inner::close_page`: insert the current page into the `pages` map and
advance the header size to the start of the next page
(`offset_of_page(current_page + 1)`).  The swap of mappings does not change
file contents. -/
def Inner.close_page (P : Nat) (st : Inner) : Inner :=
  { st with
    pageMap := st.size / P :: st.pageMap,
    size := (st.size / P + 1) * P }

/-- `Inner::bytes`: look the page up in the map, else lazily map it when
`page <= current_page()` (inserting it into the map even when the in-page
read fails), else fail with PageNotFound. -/
def Inner.bytes (P : Nat) (st : Inner) (offset : Nat) :
    Except Err (List Nat) × Inner :=
  let page := offset / P
  let page_offset := offset % P
  if page ∈ st.pageMap then
    (Page.bytes P st.mem page page_offset, st)
  else if page ≤ st.size / P then
    (Page.bytes P st.mem page page_offset,
      { st with pageMap := page :: st.pageMap })
  else
    (Except.error Err.pageNotFound, st)

/-- `Inner::append`: `ensure!(data.len() < PAGE_SIZE - 4)`; close the
current page when the record would cross a page boundary; write the
length-prefixed record into the current page at in-page offset `S % P`
(logical position `(S / P) * P + S % P`); advance the header size; return
the pre-advance size. -/
def Inner.append (P : Nat) (st : Inner) (data : List Nat) :
    Except Err Nat × Inner :=
  if data.length < P - 4 then
    let len := data.length + 4
    let offset := st.size
    let endOffset := offset + len
    let current_page := offset / P
    let end_page := endOffset / P
    let st1 := if end_page ≠ current_page then Inner.close_page P st else st
    let inPage := st1.size % P
    let mem1 := write_length_prefixed st1.mem (st1.size / P * P + inPage) data
    (Except.ok st1.size, { st1 with size := st1.size + len, mem := mem1 })
  else
    (Except.error Err.blobTooLarge, st)

/-- Run a sequence of appends, collecting each call's result. -/
def appendAll (P : Nat) (st : Inner) : List (List Nat) → List (Except Err Nat) × Inner
  | [] => ([], st)
  | d :: ds =>
    let r := Inner.append P st d
    let rest := appendAll P r.2 ds
    (r.1 :: rest.1, rest.2)

/-- The offsets of the successful results, in order. -/
def oks : List (Except Err Nat) → List Nat
  | [] => []
  | Except.ok o :: rs => o :: oks rs
  | Except.error _ :: rs => oks rs

/-- The `pages` helper of the source (line 259): number of pages needed to
hold `size` bytes. -/
def pages (size page_size : Nat) : Nat :=
  let q := size / page_size
  let r := size % page_size
  if r = 0 then q else q + 1

/-- `Inner::new` over a file left behind by a previous session: the header
size is read back; the file is truncated or zero-padded to exactly
`max(pages(S, P), 1)` pages plus the header; the `pages` map starts empty. -/
def Inner.reopen (P : Nat) (st : Inner) : Inner :=
  { size := st.size,
    mem := fun i => if i < max (pages st.size P) 1 * P then st.mem i else 0,
    pageMap := [] }

/-- Every result is a successful offset whose `bytes` read in state `st`
returns the corresponding appended payload. -/
def readsBack (P : Nat) (st : Inner) (rs : List (Except Err Nat))
    (ds : List (List Nat)) : Prop :=
  List.Forall₂
    (fun r d => ∃ o, r = Except.ok o ∧ (Inner.bytes P st o).1 = Except.ok d) rs ds

/-- States reachable from a freshly opened store by the public operations. -/
inductive Reachable (P : Nat) : Inner → Prop
  | fresh : Reachable P Inner.fresh
  | app (st : Inner) (d : List Nat) :
      Reachable P st → Reachable P (Inner.append P st d).2
  | rd (st : Inner) (o : Nat) :
      Reachable P st → Reachable P (Inner.bytes P st o).2

/-- A record of payload `d` is intact at logical offset `o`. -/
def GoodRec (P : Nat) (st : Inner) (o : Nat) (d : List Nat) : Prop :=
  o + 4 + d.length ≤ st.size ∧
  o % P + 4 + d.length < P ∧
  d.length < 2 ^ 32 ∧
  readBe32 st.mem o = d.length ∧
  readBytes st.mem (o + 4) d.length = d

/-- All records in `hist` are intact in state `st`. -/
def Good (P : Nat) (st : Inner) (hist : List (Nat × List Nat)) : Prop :=
  ∀ p ∈ hist, GoodRec P st p.1 p.2

/-! ### Byte-level lemmas -/

lemma writeBytes_below (mem : Nat → Nat) (pos : Nat) (bs : List Nat) (i : Nat)
    (h : i < pos) : writeBytes mem pos bs i = mem i := by
  simp only [writeBytes]
  rw [if_neg]
  omega

lemma writeBytes_above (mem : Nat → Nat) (pos : Nat) (bs : List Nat) (i : Nat)
    (h : pos + bs.length ≤ i) : writeBytes mem pos bs i = mem i := by
  simp only [writeBytes]
  rw [if_neg]
  omega

lemma writeBytes_at (mem : Nat → Nat) (pos : Nat) (bs : List Nat) (i : Nat)
    (h : i < bs.length) : writeBytes mem pos bs (pos + i) = bs.getD i 0 := by
  simp only [writeBytes]
  rw [if_pos]
  · congr 1
    omega
  · omega

lemma readBytes_congr (m1 m2 : Nat → Nat) (pos n : Nat)
    (h : ∀ i, i < n → m1 (pos + i) = m2 (pos + i)) :
    readBytes m1 pos n = readBytes m2 pos n := by
  simp only [readBytes]
  apply List.map_congr_left
  intro i hi
  exact h i (List.mem_range.mp hi)

lemma readBe32_congr (m1 m2 : Nat → Nat) (pos : Nat)
    (h : ∀ i, i < 4 → m1 (pos + i) = m2 (pos + i)) :
    readBe32 m1 pos = readBe32 m2 pos := by
  have h0 := h 0 (by omega)
  have h1 := h 1 (by omega)
  have h2 := h 2 (by omega)
  have h3 := h 3 (by omega)
  simp only [Nat.add_zero] at h0
  simp only [readBe32, h0, h1, h2, h3]

lemma map_range_getD (l : List Nat) :
    (List.range l.length).map (fun i => l.getD i 0) = l := by
  apply List.ext_getElem
  · simp
  · intro i h1 h2
    simp only [List.getElem_map, List.getElem_range]
    exact List.getD_eq_getElem l 0 h2

/-- The low-level stability of `write_length_prefixed`: positions strictly
below the write position are untouched. -/
lemma write_length_prefixed_below (mem : Nat → Nat) (pos : Nat)
    (data : List Nat) (i : Nat) (h : i < pos) :
    write_length_prefixed mem pos data i = mem i := by
  simp only [write_length_prefixed]
  rw [writeBytes_below _ _ _ _ (by omega), writeBytes_below _ _ _ _ h]

/-- Reading the length prefix back after a length-prefixed write. -/
lemma readBe32_write_length_prefixed (mem : Nat → Nat) (pos : Nat)
    (data : List Nat) (h : data.length < 2 ^ 32) :
    readBe32 (write_length_prefixed mem pos data) pos = data.length := by
  have key : ∀ i, i < 4 →
      write_length_prefixed mem pos data (pos + i) = (be32 data.length).getD i 0 := by
    intro i hi
    simp only [write_length_prefixed]
    rw [writeBytes_below _ _ _ _ (by omega)]
    exact writeBytes_at _ _ _ _ (by simp [be32]; omega)
  have k0 := key 0 (by omega)
  have k1 := key 1 (by omega)
  have k2 := key 2 (by omega)
  have k3 := key 3 (by omega)
  simp only [Nat.add_zero] at k0
  simp only [readBe32, k0, k1, k2, k3, be32]
  simp only [List.getD_cons_zero, List.getD_cons_succ]
  omega

/-- Reading the payload back after a length-prefixed write. -/
lemma readBytes_write_length_prefixed (mem : Nat → Nat) (pos : Nat)
    (data : List Nat) :
    readBytes (write_length_prefixed mem pos data) (pos + 4) data.length = data := by
  have key : ∀ i, i < data.length →
      write_length_prefixed mem pos data (pos + 4 + i) = data.getD i 0 := by
    intro i hi
    simp only [write_length_prefixed]
    exact writeBytes_at _ _ _ _ hi
  calc readBytes (write_length_prefixed mem pos data) (pos + 4) data.length
      = (List.range data.length).map (fun i => data.getD i 0) := by
        simp only [readBytes]
        apply List.map_congr_left
        intro i hi
        exact key i (List.mem_range.mp hi)
    _ = data := map_range_getD data

/-! ### Arithmetic about page boundaries -/

lemma exists_div_mod (S P : Nat) (hP : 0 < P) :
    ∃ q r, r < P ∧ S / P = q ∧ S % P = r ∧ S = P * q + r :=
  ⟨S / P, S % P, Nat.mod_lt _ hP, rfl, rfl, (Nat.div_add_mod S P).symm⟩

/-- If appending `L` bytes does not change the page index, the record fits
strictly inside the current page. -/
lemma mod_add_lt_of_div_eq (S L P : Nat) (hP : 0 < P)
    (h : (S + L) / P = S / P) : S % P + L < P := by
  obtain ⟨q, r, hr, hq, hm, rfl⟩ := exists_div_mod S P hP
  rw [hm]
  rw [Nat.add_assoc, Nat.mul_add_div hP, hq] at h
  have h0 : (r + L) / P = 0 := by omega
  have := (Nat.div_eq_zero_iff hP).mp h0
  omega

/-- If the record fits strictly inside the current page, the page index is
unchanged. -/
lemma div_eq_of_room (S L P : Nat) (hP : 0 < P) (h : S % P + L < P) :
    (S + L) / P = S / P := by
  obtain ⟨q, r, hr, hq, hm, rfl⟩ := exists_div_mod S P hP
  rw [hm] at h
  rw [Nat.add_assoc, Nat.mul_add_div hP, hq, Nat.div_eq_of_lt (by omega)]
  omega

/-- Any size is strictly below the start of the next page. -/
lemma lt_next_page (S P : Nat) (hP : 0 < P) : S < (S / P + 1) * P :=
  (Nat.div_lt_iff_lt_mul hP).mp (Nat.lt_succ_self (S / P))

lemma close_page_mem (P : Nat) (st : Inner) :
    (Inner.close_page P st).mem = st.mem := rfl

lemma close_page_size_le (P : Nat) (st : Inner) (hP : 0 < P) :
    st.size ≤ (Inner.close_page P st).size :=
  Nat.le_of_lt (lt_next_page st.size P hP)

/-! ### Characterizations of `Inner.append` -/

/-- A too-large blob is rejected and the state is returned unchanged. -/
lemma append_error (P : Nat) (st : Inner) (data : List Nat)
    (h : ¬ data.length < P - 4) :
    Inner.append P st data = (Except.error Err.blobTooLarge, st) := by
  simp only [Inner.append, if_neg h]

/-- When the record does not cross a page boundary, `append` writes at the
committed size and returns it. -/
lemma append_no_cross (P : Nat) (st : Inner) (data : List Nat)
    (h : data.length < P - 4)
    (hnc : (st.size + (data.length + 4)) / P = st.size / P) :
    Inner.append P st data =
      (Except.ok st.size,
       { size := st.size + (data.length + 4),
         mem := write_length_prefixed st.mem st.size data,
         pageMap := st.pageMap }) := by
  simp only [Inner.append, if_pos h]
  rw [if_neg (by simpa using hnc)]
  rw [Nat.div_add_mod']

/-- When the record would cross a page boundary, `append` seals the current
page, writes at the start of the next page, and returns that position. -/
lemma append_cross (P : Nat) (st : Inner) (data : List Nat)
    (h : data.length < P - 4)
    (hc : (st.size + (data.length + 4)) / P ≠ st.size / P) :
    Inner.append P st data =
      (Except.ok ((st.size / P + 1) * P),
       { size := (st.size / P + 1) * P + (data.length + 4),
         mem := write_length_prefixed st.mem ((st.size / P + 1) * P) data,
         pageMap := st.size / P :: st.pageMap }) := by
  simp only [Inner.append, if_pos h]
  rw [if_pos (by simpa using hc)]
  simp only [Inner.close_page]
  rw [Nat.div_add_mod']

/-! ### The record invariant and its preservation -/

/-- An intact record is returned verbatim by `Inner.bytes`. -/
lemma good_read (P : Nat) (st : Inner) (o : Nat) (d : List Nat)
    (h : GoodRec P st o d) : (Inner.bytes P st o).1 = Except.ok d := by
  obtain ⟨hsz, hfit, h32, hlen, hpay⟩ := h
  have hdiv : o / P ≤ st.size / P := Nat.div_le_div_right (by omega)
  have hpos : o / P * P + o % P = o := Nat.div_add_mod' o P
  have hpage : Page.bytes P st.mem (o / P) (o % P) = Except.ok d := by
    simp only [Page.bytes]
    rw [if_pos (by omega), hpos, hlen]
    rw [if_neg (by omega), hpay]
  simp only [Inner.bytes]
  split_ifs with h1
  · exact hpage
  · exact hpage

/-- A record below the committed size survives a later write at or above the
committed size. -/
lemma goodRec_write (P : Nat) (st : Inner) (o' : Nat) (d' : List Nat)
    (h : GoodRec P st o' d') (pos : Nat) (hpos : st.size ≤ pos)
    (data : List Nat) (newsize : Nat) (hsz : st.size ≤ newsize) (pm : List Nat) :
    GoodRec P
      { size := newsize, mem := write_length_prefixed st.mem pos data,
        pageMap := pm } o' d' := by
  obtain ⟨h1, h2, h3, h4, h5⟩ := h
  refine ⟨?_, h2, h3, ?_, ?_⟩
  · show o' + 4 + d'.length ≤ newsize
    omega
  · show readBe32 (write_length_prefixed st.mem pos data) o' = d'.length
    rw [← h4]
    exact readBe32_congr _ _ _
      (fun i hi => write_length_prefixed_below _ _ _ _ (by omega))
  · show readBytes (write_length_prefixed st.mem pos data) (o' + 4) d'.length = d'
    have heq : readBytes (write_length_prefixed st.mem pos data) (o' + 4) d'.length
        = readBytes st.mem (o' + 4) d'.length := by
      apply readBytes_congr
      intro i hi
      apply write_length_prefixed_below
      omega
    rw [heq, h5]

/-- One successful append: the new state keeps every old record intact and
adds the new one at the returned offset. -/
lemma append_step (P : Nat) (st : Inner) (d : List Nat) (h32 : P ≤ 2 ^ 32)
    (hd : d.length + 4 < P) (hist : List (Nat × List Nat))
    (hg : Good P st hist) :
    ∃ o st', Inner.append P st d = (Except.ok o, st') ∧
      st.size ≤ o ∧ o + 4 + d.length ≤ st'.size ∧ Good P st' ((o, d) :: hist) := by
  have hP : 0 < P := by omega
  have hlt : d.length < P - 4 := by omega
  by_cases hc : (st.size + (d.length + 4)) / P = st.size / P
  · refine ⟨st.size, _, append_no_cross P st d hlt hc, Nat.le_refl _,
      by dsimp only; omega, ?_⟩
    intro p hp
    rcases List.mem_cons.mp hp with rfl | hp
    · have hfit := mod_add_lt_of_div_eq st.size (d.length + 4) P hP hc
      refine ⟨?_, ?_, ?_, ?_, ?_⟩ <;> dsimp only
      · omega
      · omega
      · omega
      · exact readBe32_write_length_prefixed _ _ _ (by omega)
      · exact readBytes_write_length_prefixed _ _ _
    · exact goodRec_write P st p.1 p.2 (hg p hp) st.size (Nat.le_refl _) d _
        (by omega) _
  · have hle : st.size ≤ (st.size / P + 1) * P :=
      Nat.le_of_lt (lt_next_page st.size P hP)
    refine ⟨(st.size / P + 1) * P, _, append_cross P st d hlt hc, hle,
      by dsimp only; omega, ?_⟩
    intro p hp
    rcases List.mem_cons.mp hp with rfl | hp
    · have hmod : (st.size / P + 1) * P % P = 0 := Nat.mul_mod_left _ _
      refine ⟨?_, ?_, ?_, ?_, ?_⟩ <;> dsimp only
      · omega
      · omega
      · omega
      · exact readBe32_write_length_prefixed _ _ _ (by omega)
      · exact readBytes_write_length_prefixed _ _ _
    · exact goodRec_write P st p.1 p.2 (hg p hp) _ hle d _ (by omega) _

/-- Running a sequence of appends that all satisfy the size precondition
succeeds throughout, keeps every record intact, and each result is the
offset of its blob's record. -/
lemma appendAll_hist (P : Nat) (h32 : P ≤ 2 ^ 32) :
    ∀ (ds : List (List Nat)) (st : Inner) (hist : List (Nat × List Nat)),
      Good P st hist → (∀ d ∈ ds, d.length + 4 < P) →
      ∃ hist',
        Good P (appendAll P st ds).2 (hist' ++ hist) ∧
        List.Forall₂ (fun r d => ∃ o, r = Except.ok o ∧ (o, d) ∈ hist')
          (appendAll P st ds).1 ds
  | [], st, hist, hg, _ => ⟨[], by simpa [appendAll] using hg, List.Forall₂.nil⟩
  | d :: ds, st, hist, hg, hds => by
    obtain ⟨o, st', heq, hle, hsz, hg'⟩ :=
      append_step P st d h32 (hds d (List.mem_cons_self d ds)) hist hg
    obtain ⟨hist'', hgood, hf⟩ :=
      appendAll_hist P h32 ds st' ((o, d) :: hist) hg'
        (fun d' hd' => hds d' (List.mem_cons_of_mem d hd'))
    refine ⟨hist'' ++ [(o, d)], ?_, ?_⟩
    · have hassoc : hist'' ++ [(o, d)] ++ hist = hist'' ++ ((o, d) :: hist) := by
        simp
      rw [hassoc]
      simpa [appendAll, heq] using hgood
    · have h1 : (appendAll P st (d :: ds)).1 = Except.ok o :: (appendAll P st' ds).1 := by
        simp [appendAll, heq]
      rw [h1]
      refine List.Forall₂.cons ⟨o, rfl, by simp⟩ ?_
      exact hf.imp (fun r d' h => by
        obtain ⟨o', ho', hm⟩ := h
        exact ⟨o', ho', List.mem_append_left _ hm⟩)

/-- Intact records read back through `Inner.bytes`. -/
lemma good_readsBack (P : Nat) (st : Inner) (hist : List (Nat × List Nat))
    (rs : List (Except Err Nat)) (ds : List (List Nat)) (hg : Good P st hist)
    (hf : List.Forall₂ (fun r d => ∃ o, r = Except.ok o ∧ (o, d) ∈ hist) rs ds) :
    readsBack P st rs ds :=
  hf.imp (fun r d h => by
    obtain ⟨o, ho, hm⟩ := h
    exact ⟨o, ho, good_read P st o d (hg (o, d) hm)⟩)

/-- Re-opening the store (truncating the file to the page count derived from
the committed size) keeps every committed record intact. -/
lemma good_reopen (P : Nat) (st : Inner) (hist : List (Nat × List Nat))
    (hg : Good P st hist) : Good P (Inner.reopen P st) hist := by
  intro p hp
  obtain ⟨h1, h2, h3, h4, h5⟩ := hg p hp
  have hP : 0 < P := by omega
  have hbound : st.size ≤ max (pages st.size P) 1 * P := by
    have hp1 : st.size ≤ pages st.size P * P := by
      simp only [pages]
      by_cases hr : st.size % P = 0
      · rw [if_pos hr, Nat.div_mul_cancel (Nat.dvd_of_mod_eq_zero hr)]
      · rw [if_neg hr]
        exact Nat.le_of_lt (lt_next_page st.size P hP)
    calc st.size ≤ pages st.size P * P := hp1
      _ ≤ max (pages st.size P) 1 * P :=
        Nat.mul_le_mul_right _ (le_max_left _ _)
  have hm : ∀ j, j < st.size → (Inner.reopen P st).mem j = st.mem j := by
    intro j hj
    show (if j < max (pages st.size P) 1 * P then st.mem j else 0) = st.mem j
    rw [if_pos (by omega)]
  refine ⟨h1, h2, h3, ?_, ?_⟩
  · show readBe32 (Inner.reopen P st).mem p.1 = p.2.length
    rw [← h4]
    apply readBe32_congr
    intro i hi
    exact hm _ (by omega)
  · show readBytes (Inner.reopen P st).mem (p.1 + 4) p.2.length = p.2
    have heq : readBytes (Inner.reopen P st).mem (p.1 + 4) p.2.length
        = readBytes st.mem (p.1 + 4) p.2.length := by
      apply readBytes_congr
      intro i hi
      exact hm _ (by omega)
    rw [heq, h5]

/-- C1: for every sequence of blobs each satisfying the append size
precondition (the code's check `len(data) + 4 < P`), appending them in order
on a freshly opened store yields offsets at which `bytes` on the resulting
store returns exactly the appended payloads. -/
theorem append_roundtrip (P : Nat) (ds : List (List Nat)) (h32 : P ≤ 2 ^ 32)
    (hds : ∀ d ∈ ds, d.length + 4 < P) :
    readsBack P (appendAll P Inner.fresh ds).2 (appendAll P Inner.fresh ds).1 ds := by
  obtain ⟨hist', hgood, hf⟩ := appendAll_hist P h32 ds Inner.fresh []
    (fun p hp => absurd hp (List.not_mem_nil p)) hds
  exact good_readsBack P _ _ _ _ (by simpa using hgood) hf

/-- Witness for C1 at `P = 8` with blobs `[1,2,3]`, `[4]`, `[]`. -/
theorem append_roundtrip_witness :
    (∀ d ∈ [[1,2,3],[4],([] : List Nat)], d.length + 4 < 8) ∧
    readsBack 8 (appendAll 8 Inner.fresh [[1,2,3],[4],[]]).2
      (appendAll 8 Inner.fresh [[1,2,3],[4],[]]).1 [[1,2,3],[4],[]] :=
  ⟨by decide, append_roundtrip 8 [[1,2,3],[4],[]] (by norm_num) (by decide)⟩

/-- C2 counterexample: at `P = 8` a blob of exactly `P - 4 = 4` bytes is
rejected with BlobTooLarge, though the claim asserts that appends with
`len(data) + 4 ≤ P` (so in particular of `P - 4` bytes) succeed: the source
checks `data.len() < PAGE_SIZE - 4`, a strict inequality. -/
theorem append_exact_fit_rejected :
    (Inner.append 8 Inner.fresh [0, 0, 0, 0]).1 = Except.error Err.blobTooLarge := rfl

/-- C2 (amended): `append(data)` fails with BlobTooLarge if and only if
`len(data) + 4 ≥ P`; equivalently, it succeeds if and only if
`len(data) + 4 < P`.  A blob of exactly `P - 4` bytes fails; one of
`P - 5` bytes succeeds. -/
theorem append_blobTooLarge_iff (P : Nat) (st : Inner) (data : List Nat) :
    ((Inner.append P st data).1 = Except.error Err.blobTooLarge ↔ P ≤ data.length + 4)
  ∧ ((∃ o, (Inner.append P st data).1 = Except.ok o) ↔ data.length + 4 < P) := by
  by_cases h : data.length < P - 4
  · by_cases hc : (st.size + (data.length + 4)) / P = st.size / P
    · rw [append_no_cross P st data h hc]
      constructor
      · simp
        omega
      · simp
        omega
    · rw [append_cross P st data h hc]
      constructor
      · simp
        omega
      · simp
        omega
  · rw [append_error P st data h]
    constructor
    · simp
      omega
    · simp
      omega

/-- C3 counterexample: at `P = 8`, after one empty blob (`S = 4`), a second
empty blob's record ends exactly at the page boundary `8`.  The claim
predicts offset `4` inside page 0 with no seal; the store instead seals
page 0 (it appears in the page map) and returns offset `8`. -/
theorem append_exact_boundary_seals :
    (appendAll 8 Inner.fresh [[], []]).1 = [Except.ok 0, Except.ok 8]
  ∧ 0 ∈ ((appendAll 8 Inner.fresh [[], []]).2).pageMap := ⟨rfl, by decide⟩

/-- C3 (amended): an append whose length-prefixed record would end exactly
at a page boundary `k * P` DOES trigger the seal-then-write sequence: the
current page `S / P` is sealed (inserted into the page map), the record is
written at the start of the fresh page `k = S / P + 1`, the returned offset
is `k * P = S + len(data) + 4`, and the new committed size is
`k * P + len(data) + 4`. -/
theorem append_exact_boundary (P : Nat) (st : Inner) (d : List Nat)
    (hfit : d.length + 4 < P)
    (hx : (st.size + (d.length + 4)) % P = 0) :
    (Inner.append P st d).1 = Except.ok ((st.size / P + 1) * P)
  ∧ (st.size / P + 1) * P = st.size + (d.length + 4)
  ∧ st.size / P ∈ ((Inner.append P st d).2).pageMap
  ∧ ((Inner.append P st d).2).size = (st.size / P + 1) * P + (d.length + 4) := by
  have hP : 0 < P := by omega
  have hlt : d.length < P - 4 := by omega
  obtain ⟨q, r, hr, hq, hm, hsz⟩ := exists_div_mod st.size P hP
  have hx' : (r + (d.length + 4)) % P = 0 := by
    rw [hsz, Nat.add_assoc, Nat.add_comm (P * q), Nat.add_mul_mod_self_left] at hx
    exact hx
  have hrl : r + (d.length + 4) = P := by
    rcases Nat.lt_or_ge (r + (d.length + 4)) P with hlt2 | hge
    · rw [Nat.mod_eq_of_lt hlt2] at hx'
      omega
    · have h2 : r + (d.length + 4) - P < P := by omega
      rw [Nat.mod_eq_sub_mod hge, Nat.mod_eq_of_lt h2] at hx'
      omega
  have hboundary : st.size + (d.length + 4) = (q + 1) * P := by
    rw [hsz]
    ring_nf
    omega
  have hc : (st.size + (d.length + 4)) / P ≠ st.size / P := by
    rw [hboundary, hq, Nat.mul_div_cancel _ hP]
    omega
  rw [append_cross P st d hlt hc]
  refine ⟨rfl, ?_, ?_, rfl⟩
  · rw [hq, ← hboundary]
  · show st.size / P ∈ st.size / P :: st.pageMap
    exact List.mem_cons_self _ _

/-- Witness for C3 (amended) at `P = 8`, committed size 4, empty blob. -/
theorem append_exact_boundary_witness :
    (([] : List Nat).length + 4 < 8)
  ∧ ((4 + (([] : List Nat).length + 4)) % 8 = 0)
  ∧ ((Inner.append 8 { size := 4, mem := fun _ => 0, pageMap := [] } []).1
        = Except.ok ((4 / 8 + 1) * 8)
     ∧ (4 / 8 + 1) * 8 = 4 + (([] : List Nat).length + 4)
     ∧ 4 / 8 ∈ ((Inner.append 8 { size := 4, mem := fun _ => 0, pageMap := [] } []).2).pageMap
     ∧ ((Inner.append 8 { size := 4, mem := fun _ => 0, pageMap := [] } []).2).size
        = (4 / 8 + 1) * 8 + (([] : List Nat).length + 4)) :=
  ⟨by decide, by decide,
   append_exact_boundary 8 { size := 4, mem := fun _ => 0, pageMap := [] } []
     (by decide) (by decide)⟩

/-- C8: an append rejected with BlobTooLarge leaves the whole store state
unchanged, and a subsequent append that fits in the current page succeeds
and returns the committed size from before the failed call. -/
theorem append_too_large_state (P : Nat) (st : Inner) (d d2 : List Nat)
    (hfail : (Inner.append P st d).1 = Except.error Err.blobTooLarge)
    (hroom : st.size % P + (d2.length + 4) < P) :
    (Inner.append P st d).2 = st
  ∧ (Inner.append P ((Inner.append P st d).2) d2).1 = Except.ok st.size := by
  have hP : 0 < P := by omega
  have hd : ¬ d.length < P - 4 := by
    intro hlt
    by_cases hc : (st.size + (d.length + 4)) / P = st.size / P
    · rw [append_no_cross P st d hlt hc] at hfail
      exact absurd hfail (by simp)
    · rw [append_cross P st d hlt hc] at hfail
      exact absurd hfail (by simp)
  have hunch : (Inner.append P st d).2 = st := by
    rw [append_error P st d hd]
  refine ⟨hunch, ?_⟩
  rw [hunch]
  have hlt2 : d2.length < P - 4 := by omega
  have hnc : (st.size + (d2.length + 4)) / P = st.size / P :=
    div_eq_of_room _ _ _ hP hroom
  rw [append_no_cross P st d2 hlt2 hnc]

set_option maxRecDepth 10000 in
/-- Witness for C8: Scenario D at `P = 1024` — a 1020-byte blob fails, the
state is unchanged, and a 1016-byte blob then succeeds at offset 0. -/
theorem append_too_large_state_witness :
    ((Inner.append 1024 Inner.fresh (List.replicate 1020 7)).1
        = Except.error Err.blobTooLarge)
  ∧ (Inner.fresh.size % 1024 + ((List.replicate 1016 7).length + 4) < 1024)
  ∧ ((Inner.append 1024 Inner.fresh (List.replicate 1020 7)).2 = Inner.fresh
     ∧ (Inner.append 1024 ((Inner.append 1024 Inner.fresh (List.replicate 1020 7)).2)
          (List.replicate 1016 7)).1 = Except.ok Inner.fresh.size) :=
  ⟨rfl, by decide,
   append_too_large_state 1024 Inner.fresh (List.replicate 1020 7)
     (List.replicate 1016 7) rfl (by decide)⟩

/-- C10 counterexample: at `P = 8` with committed size 7 (after a 3-byte
blob), appending the empty blob returns offset 8 — not the committed size
7 — and advances the size from 7 to 12, by 5 rather than exactly 4: the
4-byte record would cross the page boundary, so the page is sealed first. -/
theorem append_empty_at_boundary :
    (appendAll 8 Inner.fresh [[0, 0, 0], []]).1 = [Except.ok 0, Except.ok 8]
  ∧ ((appendAll 8 Inner.fresh [[0, 0, 0], []]).2).size = 12 := ⟨rfl, rfl⟩

/-- C10 (amended): appending an empty blob succeeds; when its 4-byte record
fits in the current page (`S % P + 4 < P`) it returns the committed size
`S`, advances `S` by exactly 4, and `bytes` at the returned offset yields
the empty payload. -/
theorem append_empty (P : Nat) (st : Inner) (hfit : st.size % P + 4 < P) :
    (Inner.append P st []).1 = Except.ok st.size
  ∧ ((Inner.append P st []).2).size = st.size + 4
  ∧ (Inner.bytes P (Inner.append P st []).2 st.size).1 = Except.ok [] := by
  have hP : 0 < P := by omega
  have hlt : ([] : List Nat).length < P - 4 := by
    simp only [List.length_nil]
    omega
  have hnc : (st.size + (([] : List Nat).length + 4)) / P = st.size / P := by
    simp only [List.length_nil, Nat.zero_add]
    exact div_eq_of_room _ _ _ hP (by omega)
  rw [append_no_cross P st [] hlt hnc]
  refine ⟨rfl, by simp, ?_⟩
  apply good_read
  refine ⟨?_, ?_, ?_, ?_, ?_⟩ <;> dsimp only
  · omega
  · simp only [List.length_nil]
    omega
  · simp only [List.length_nil]
    omega
  · exact readBe32_write_length_prefixed _ _ _ (by simp)
  · exact readBytes_write_length_prefixed _ _ _

/-- Witness for C10 (amended) at `P = 8` on the fresh store. -/
theorem append_empty_witness :
    (Inner.fresh.size % 8 + 4 < 8)
  ∧ ((Inner.append 8 Inner.fresh []).1 = Except.ok Inner.fresh.size
     ∧ ((Inner.append 8 Inner.fresh []).2).size = Inner.fresh.size + 4
     ∧ (Inner.bytes 8 (Inner.append 8 Inner.fresh []).2 Inner.fresh.size).1
        = Except.ok []) :=
  ⟨by decide, append_empty 8 Inner.fresh (by decide)⟩

/-- C4: after any sequence of successful appends, re-opening the store over
the same file preserves the committed size, every previously returned offset
still reads back its blob, and the next append that fits in the current page
starts at the committed size `S` recorded in the header (Scenario C's
`P = 1024`, two 500-byte blobs, next append at 1008). -/
theorem reopen_preserves (P : Nat) (ds : List (List Nat)) (d2 : List Nat)
    (h32 : P ≤ 2 ^ 32) (hds : ∀ d ∈ ds, d.length + 4 < P)
    (hd2 : ((appendAll P Inner.fresh ds).2).size % P + (d2.length + 4) < P) :
    (Inner.reopen P (appendAll P Inner.fresh ds).2).size
        = ((appendAll P Inner.fresh ds).2).size
  ∧ readsBack P (Inner.reopen P (appendAll P Inner.fresh ds).2)
      (appendAll P Inner.fresh ds).1 ds
  ∧ (Inner.append P (Inner.reopen P (appendAll P Inner.fresh ds).2) d2).1
      = Except.ok (((appendAll P Inner.fresh ds).2).size) := by
  have hP : 0 < P := by omega
  obtain ⟨hist', hgood, hf⟩ := appendAll_hist P h32 ds Inner.fresh []
    (fun p hp => absurd hp (List.not_mem_nil p)) hds
  have hgood' : Good P (appendAll P Inner.fresh ds).2 hist' := by simpa using hgood
  refine ⟨rfl, ?_, ?_⟩
  · exact good_readsBack P _ _ _ _ (good_reopen P _ _ hgood') hf
  · have hlt : d2.length < P - 4 := by omega
    have hnc := div_eq_of_room ((appendAll P Inner.fresh ds).2).size
      (d2.length + 4) P hP hd2
    have heq := append_no_cross P
      (Inner.reopen P (appendAll P Inner.fresh ds).2) d2 hlt hnc
    rw [heq]
    rfl

/-- Helper blobs for Scenario C: two 500-byte blobs. -/
def scenarioC : List (List Nat) := [List.replicate 500 16, List.replicate 500 32]

set_option maxRecDepth 100000 in
/-- Witness for C4: Scenario C — `P = 1024`, two 500-byte blobs, a small
next append lands at offset 1008. -/
theorem reopen_preserves_witness :
    (∀ d ∈ scenarioC, d.length + 4 < 1024)
  ∧ ((appendAll 1024 Inner.fresh scenarioC).2.size % 1024 + ([1, 2, 3].length + 4) < 1024)
  ∧ ((Inner.reopen 1024 (appendAll 1024 Inner.fresh scenarioC).2).size
        = (appendAll 1024 Inner.fresh scenarioC).2.size
     ∧ readsBack 1024 (Inner.reopen 1024 (appendAll 1024 Inner.fresh scenarioC).2)
         (appendAll 1024 Inner.fresh scenarioC).1 scenarioC
     ∧ (Inner.append 1024
          (Inner.reopen 1024 (appendAll 1024 Inner.fresh scenarioC).2) [1, 2, 3]).1
        = Except.ok ((appendAll 1024 Inner.fresh scenarioC).2.size)) :=
  ⟨by decide, by decide,
   reopen_preserves 1024 scenarioC [1, 2, 3] (by norm_num) (by decide) (by decide)⟩

/-- C5: `Page::bytes(in_page_offset)` fails with BadOffset exactly when the
precondition `in_page_offset + 4 < P` is violated; fails with Truncated
exactly when the precondition holds but the big-endian length `L` read at
the offset satisfies `in_page_offset + 4 + L > P`; and otherwise returns the
`L` payload bytes following the length prefix. -/
theorem page_bytes_spec (P : Nat) (mem : Nat → Nat) (page po : Nat) :
    (Page.bytes P mem page po = Except.error Err.badOffset ↔ P ≤ po + 4)
  ∧ (Page.bytes P mem page po = Except.error Err.truncated
      ↔ (po + 4 < P ∧ P < po + 4 + readBe32 mem (page * P + po)))
  ∧ (Page.bytes P mem page po
        = Except.ok (readBytes mem (page * P + po + 4) (readBe32 mem (page * P + po)))
      ↔ (po + 4 < P ∧ po + 4 + readBe32 mem (page * P + po) ≤ P)) := by
  simp only [Page.bytes]
  split_ifs with h1 h2
  · exact ⟨iff_of_false (by simp) (by omega),
      iff_of_true rfl ⟨h1, by omega⟩,
      iff_of_false (by simp) (by omega)⟩
  · exact ⟨iff_of_false (by simp) (by omega),
      iff_of_false (by simp) (by omega),
      iff_of_true rfl ⟨h1, by omega⟩⟩
  · exact ⟨iff_of_true rfl (by omega),
      iff_of_false (by simp) (by omega),
      iff_of_false (by simp) (by omega)⟩

/-- C6: a successful `append` never spans two pages —
`in_page_offset(o) + 4 + len(d) ≤ P` — and either the write stayed in the
current page (no boundary crossing) or the store sealed the current page
first and wrote the record at the start of the fresh page. -/
theorem append_no_spanning (P : Nat) (st : Inner) (d : List Nat) (o : Nat)
    (h : (Inner.append P st d).1 = Except.ok o) :
    o % P + 4 + d.length ≤ P
  ∧ ((st.size + (d.length + 4)) / P = st.size / P
      ∨ (o % P = 0 ∧ o = (st.size / P + 1) * P
         ∧ st.size / P ∈ ((Inner.append P st d).2).pageMap)) := by
  by_cases hd : d.length < P - 4
  · have hP : 0 < P := by omega
    by_cases hc : (st.size + (d.length + 4)) / P = st.size / P
    · rw [append_no_cross P st d hd hc] at h ⊢
      dsimp only at h
      injection h with h'
      subst h'
      have hfit := mod_add_lt_of_div_eq st.size (d.length + 4) P hP hc
      exact ⟨by omega, Or.inl hc⟩
    · rw [append_cross P st d hd hc] at h ⊢
      dsimp only at h
      injection h with h'
      subst h'
      have hmod : (st.size / P + 1) * P % P = 0 := Nat.mul_mod_left _ _
      refine ⟨by omega, Or.inr ⟨hmod, rfl, ?_⟩⟩
      exact List.mem_cons_self _ _
  · rw [append_error P st d hd] at h
    dsimp only at h
    exact absurd h (by simp)

/-- Witness for C6 at `P = 8` with a 2-byte blob on the fresh store. -/
theorem append_no_spanning_witness :
    ((Inner.append 8 Inner.fresh [9, 9]).1 = Except.ok 0)
  ∧ (0 % 8 + 4 + [9, 9].length ≤ 8
     ∧ ((Inner.fresh.size + ([9, 9].length + 4)) / 8 = Inner.fresh.size / 8
        ∨ (0 % 8 = 0 ∧ 0 = (Inner.fresh.size / 8 + 1) * 8
           ∧ Inner.fresh.size / 8 ∈ ((Inner.append 8 Inner.fresh [9, 9]).2).pageMap))) :=
  ⟨rfl, append_no_spanning 8 Inner.fresh [9, 9] 0 rfl⟩

/-! ### Size monotonicity and offset ordering (C7) -/

lemma append_size_mono (P : Nat) (st : Inner) (d : List Nat) :
    st.size ≤ ((Inner.append P st d).2).size := by
  by_cases hd : d.length < P - 4
  · have hP : 0 < P := by omega
    by_cases hc : (st.size + (d.length + 4)) / P = st.size / P
    · rw [append_no_cross P st d hd hc]
      dsimp only
      omega
    · rw [append_cross P st d hd hc]
      dsimp only
      have := lt_next_page st.size P hP
      omega
  · rw [append_error P st d hd]

lemma bytes_size_eq (P : Nat) (st : Inner) (off : Nat) :
    ((Inner.bytes P st off).2).size = st.size := by
  simp only [Inner.bytes]
  split_ifs <;> rfl

lemma append_ok_bounds (P : Nat) (st : Inner) (d : List Nat) (o : Nat)
    (h : (Inner.append P st d).1 = Except.ok o) :
    st.size ≤ o ∧ o < ((Inner.append P st d).2).size := by
  by_cases hd : d.length < P - 4
  · have hP : 0 < P := by omega
    by_cases hc : (st.size + (d.length + 4)) / P = st.size / P
    · rw [append_no_cross P st d hd hc] at h ⊢
      dsimp only at h ⊢
      injection h with h'
      subst h'
      omega
    · rw [append_cross P st d hd hc] at h ⊢
      dsimp only at h ⊢
      injection h with h'
      subst h'
      exact ⟨Nat.le_of_lt (lt_next_page st.size P hP), by omega⟩
  · rw [append_error P st d hd] at h
    dsimp only at h
    exact absurd h (by simp)

lemma oks_ok (o : Nat) (rs : List (Except Err Nat)) :
    oks (Except.ok o :: rs) = o :: oks rs := rfl

lemma oks_error (e : Err) (rs : List (Except Err Nat)) :
    oks (Except.error e :: rs) = oks rs := rfl

lemma appendAll_cons (P : Nat) (st : Inner) (d : List Nat) (ds : List (List Nat)) :
    appendAll P st (d :: ds)
      = ((Inner.append P st d).1 :: (appendAll P (Inner.append P st d).2 ds).1,
         (appendAll P (Inner.append P st d).2 ds).2) := rfl

lemma appendAll_offsets (P : Nat) :
    ∀ (ds : List (List Nat)) (st : Inner),
      List.Chain' (· < ·) (oks (appendAll P st ds).1) ∧
      ∀ o ∈ oks (appendAll P st ds).1, st.size ≤ o
  | [], st => ⟨List.chain'_nil, fun o ho => absurd ho (List.not_mem_nil o)⟩
  | d :: ds, st => by
    obtain ⟨ih1, ih2⟩ := appendAll_offsets P ds (Inner.append P st d).2
    have hmono := append_size_mono P st d
    rw [appendAll_cons]
    cases h : (Inner.append P st d).1 with
    | error e =>
      dsimp only
      rw [oks_error]
      exact ⟨ih1, fun o ho => Nat.le_trans hmono (ih2 o ho)⟩
    | ok o =>
      dsimp only
      rw [oks_ok]
      obtain ⟨hle, hlt⟩ := append_ok_bounds P st d o h
      constructor
      · rw [List.chain'_cons']
        refine ⟨?_, ih1⟩
        intro b hb
        have hbm : b ∈ oks (appendAll P (Inner.append P st d).2 ds).1 :=
          List.mem_of_mem_head? hb
        exact Nat.lt_of_lt_of_le hlt (ih2 b hbm)
      · intro o' ho'
        rcases List.mem_cons.mp ho' with rfl | ho'
        · exact hle
        · exact Nat.le_trans hmono (ih2 o' ho')

/-- C7: the committed size `S` never decreases across any operation (append,
successful or not, and bytes), and the offsets returned by the successful
appends of any run are strictly increasing. -/
theorem size_monotone_offsets_increasing (P : Nat) (st : Inner) (d : List Nat)
    (off : Nat) (ds : List (List Nat)) :
    st.size ≤ ((Inner.append P st d).2).size
  ∧ ((Inner.bytes P st off).2).size = st.size
  ∧ List.Chain' (· < ·) (oks (appendAll P st ds).1) :=
  ⟨append_size_mono P st d, bytes_size_eq P st off,
   (appendAll_offsets P ds st).1⟩

/-! ### PageNotFound characterization (C9) -/

/-- Every page index in the page map of a reachable state is at most the
current page index. -/
lemma reachable_pageMap (P : Nat) (st : Inner) (h : Reachable P st) :
    ∀ k ∈ st.pageMap, k ≤ st.size / P := by
  induction h with
  | fresh =>
    intro k hk
    cases hk
  | app st1 d hr ih =>
    by_cases hd : d.length < P - 4
    · have hP : 0 < P := by omega
      by_cases hc : (st1.size + (d.length + 4)) / P = st1.size / P
      · rw [append_no_cross P st1 d hd hc]
        dsimp only
        intro k hk
        have h1 := ih k hk
        have h2 : st1.size / P ≤ (st1.size + (d.length + 4)) / P :=
          Nat.div_le_div_right (by omega)
        omega
      · rw [append_cross P st1 d hd hc]
        dsimp only
        intro k hk
        have hup : st1.size ≤ (st1.size / P + 1) * P + (d.length + 4) := by
          have := lt_next_page st1.size P hP
          omega
        rcases List.mem_cons.mp hk with rfl | hk
        · have h2 : ((st1.size / P + 1) * P) / P = st1.size / P + 1 :=
            Nat.mul_div_cancel _ hP
          have h3 : ((st1.size / P + 1) * P) / P
              ≤ ((st1.size / P + 1) * P + (d.length + 4)) / P :=
            Nat.div_le_div_right (by omega)
          omega
        · have h4 := ih k hk
          have h5 : st1.size / P ≤ ((st1.size / P + 1) * P + (d.length + 4)) / P :=
            Nat.div_le_div_right hup
          omega
    · rw [append_error P st1 d hd]
      exact ih
  | rd st1 o hr ih =>
    simp only [Inner.bytes]
    split_ifs with h1 h2
    · exact ih
    · intro k hk
      rcases List.mem_cons.mp hk with rfl | hk
      · exact h2
      · exact ih k hk
    · exact ih

/-- C9: on any reachable state, `bytes(offset)` fails with PageNotFound
exactly when `page_index(offset) > current_page_index()`; for offsets at or
below the current page the result is the per-page read (never
PageNotFound). -/
theorem bytes_pageNotFound_iff (P : Nat) (st : Inner) (off : Nat)
    (hst : Reachable P st) :
    ((Inner.bytes P st off).1 = Except.error Err.pageNotFound
      ↔ st.size / P < off / P) := by
  have hinv := reachable_pageMap P st hst
  have hpb : ∀ page po, Page.bytes P st.mem page po ≠ Except.error Err.pageNotFound := by
    intro page po
    simp only [Page.bytes]
    split_ifs <;> simp
  simp only [Inner.bytes]
  split_ifs with h1 h2
  · constructor
    · intro hcontra
      exact absurd hcontra (hpb _ _)
    · intro hlt
      exact absurd (hinv _ h1) (by omega)
  · constructor
    · intro hcontra
      exact absurd hcontra (hpb _ _)
    · intro hlt
      exact absurd h2 (by omega)
  · constructor
    · intro _
      omega
    · intro _
      rfl

/-- Witness for C9: reading offset 2048 (page 2) on the fresh store at
`P = 1024` fails with PageNotFound. -/
theorem bytes_pageNotFound_iff_witness :
    (Inner.bytes 1024 Inner.fresh 2048).1 = Except.error Err.pageNotFound :=
  (bytes_pageNotFound_iff 1024 Inner.fresh 2048 Reachable.fresh).mpr (by decide)

end PagedFileStore
